import Mathlib

/-!
Verification of the street-network routing core in `src/backend/dataProcessor.js`.

The JavaScript source is shallowly embedded: JS numbers are modelled as
rationals (`ℚ`), JS objects used as keyed maps become association lists,
string node ids `node_<k>` become the counter value `k : ℕ`, and the string
segment ids become `ℕ` ids.  The only transcendental function of the core,
the Haversine `calculateDistance`, is not computable over `ℚ`; wherever it is
consumed (coordinate-polyline reconstruction) the embedding abstracts it as an
explicit `dist` parameter, and theorems assume only the sign facts that the
Haversine formula satisfies on the inputs concerned (`dist c c = 0`,
`0 ≤ dist c d`, and strict positivity on distinct nearby points).  A
computable stand-in (`sqDist`, squared planar distance) instantiates the
parameter in concrete evaluations; on every concrete comparison appearing in
those evaluations it agrees with the Haversine comparisons, since Haversine is
strictly monotone in planar separation at the scales involved.

The source file contains two revisions of the routing module.  They share
`buildGraph`, `findFastestPath`, `findClosestPointOnSegment` and
`pathToCoordinates` verbatim; they differ in `findSafestPath`: the later
revision resolves day/night from a fixed hour window
(`hour > 6 && hour < 19`) and uses the linear cost
`max(0.1, distance - safetyScore*0.1)` in both regimes, while the earlier
revision uses the same linear cost at night and
`distance + max(0, 5 - safetyScore)*0.15` by day.  Both cost shapes are
embedded (`edgeCost` and `dayCostV1`).
-/

/-- A coordinate, `[lat, lng]` in the source. -/
abbrev Coord := ℚ × ℚ

/-- The `scores` record carried by each segment (fields `infra`, `light`,
`crime`, `amenity`, `disruption` in `loadStreetData`). -/
structure Scores where
  infra : ℚ
  light : ℚ
  crime : ℚ
  amenity : ℚ
  disruption : ℚ
deriving DecidableEq

/-- A street segment as produced by `loadStreetData`.  Only the fields that the
graph/pathfinding core reads are embedded; `sid` stands for the string id
(`bike_<i>`), and `stop` for the JS field `end` (a Lean keyword). -/
structure Segment where
  sid : ℕ
  coordinates : List Coord
  length : ℚ
  start : Coord
  stop : Coord
  scores : Scores
deriving DecidableEq

/-- Scoring weight `W_INFRASTRUCTURE = 2.5`. -/
def W_INFRASTRUCTURE : ℚ := 5 / 2

/-- Scoring weight `W_LIGHTING = 2.0`. -/
def W_LIGHTING : ℚ := 2

/-- Scoring weight `W_AMENITY = 1.5`. -/
def W_AMENITY : ℚ := 3 / 2

/-- Scoring weight `W_CRIME = -3.0`. -/
def W_CRIME : ℚ := -3

/-- Scoring weight `W_DISRUPTION = -2.0`. -/
def W_DISRUPTION : ℚ := -2

/-- The weighted linear safety score computed in each relaxation of
`findSafestPath`:
`(W_INFRASTRUCTURE*infra) + (lightWeight*light) + (W_AMENITY*amenity) +
(crimeWeight*crime) + (W_DISRUPTION*disruption)`. -/
def safetyScore (lightWeight crimeWeight : ℚ) (s : Scores) : ℚ :=
  W_INFRASTRUCTURE * s.infra + lightWeight * s.light + W_AMENITY * s.amenity +
    crimeWeight * s.crime + W_DISRUPTION * s.disruption

/-- The pre-clamp traversal cost `cost = neighbor.distance - safetyScore * 0.1`
of the linear formula (night regime of both revisions, both regimes of the
later revision). -/
def rawCost (lightWeight crimeWeight distance : ℚ) (s : Scores) : ℚ :=
  distance - safetyScore lightWeight crimeWeight s * (1 / 10)

/-- The clamped traversal cost `finalCost = Math.max(0.1, cost)` used in the
relaxation of `findSafestPath`. -/
def edgeCost (lightWeight crimeWeight distance : ℚ) (s : Scores) : ℚ :=
  max (1 / 10) (rawCost lightWeight crimeWeight distance s)

/-- The pre-clamp day cost of the earlier revision:
`cost = distance + Math.max(0, 5 - safetyScore) * 0.15`, where the day profile
sets `lightWeight = 0.1` and keeps `crimeWeight = W_CRIME`. -/
def dayRawCostV1 (distance : ℚ) (s : Scores) : ℚ :=
  distance + max 0 (5 - safetyScore (1 / 10) W_CRIME s) * (15 / 100)

/-- The clamped day cost `Math.max(0.1, cost)` of the earlier revision. -/
def dayCostV1 (distance : ℚ) (s : Scores) : ℚ :=
  max (1 / 10) (dayRawCostV1 distance s)

/-- The hour actually used by `findSafestPath`:
`const hour = parseInt(currentHour) || 12`.  For an integer argument,
`parseInt` is the identity, and `|| 12` replaces the falsy hour `0` by `12`. -/
def resolveHour (currentHour : ℤ) : ℤ :=
  if currentHour = 0 then 12 else currentHour

/-- The day test `const isDayTime = (hour > 6 && hour < 19)` of the later
revision, applied to the resolved hour. -/
def isDayTimeHour (currentHour : ℤ) : Bool :=
  decide (6 < resolveHour currentHour ∧ resolveHour currentHour < 19)

/-- The `(lightWeight, crimeWeight)` profile chosen by `findSafestPath`:
day keeps `W_CRIME` and sets `lightWeight = 0.1`; night keeps `W_LIGHTING`
and amplifies `crimeWeight = W_CRIME * 1.5`. -/
def safestWeights (currentHour : ℤ) : ℚ × ℚ :=
  if isDayTimeHour currentHour then (1 / 10, W_CRIME)
  else (W_LIGHTING, W_CRIME * (3 / 2))

/-- `findClosestPointOnSegment(point, segmentStart, segmentEnd)`: projects
`point` onto the segment, clamping the parameter `t` to `[0, 1]`; a
zero-length segment (`lengthSquared === 0`) short-circuits to `segmentStart`
before any division. -/
def findClosestPointOnSegment (point segmentStart segmentEnd : Coord) : Coord :=
  let dx := segmentEnd.1 - segmentStart.1
  let dy := segmentEnd.2 - segmentStart.2
  let lengthSquared := dx * dx + dy * dy
  if lengthSquared = 0 then segmentStart
  else
    let t := max 0 (min 1
      (((point.1 - segmentStart.1) * dx + (point.2 - segmentStart.2) * dy) / lengthSquared))
    (segmentStart.1 + t * dx, segmentStart.2 + t * dy)

/-- Example scores used by the C2 witness. -/
def sW : Scores := ⟨6, 5, 3, 4, 0⟩

/-- A directed half of a bidirectional connection, as pushed into a node's
`neighbors` array by `buildGraph`: target node id, originating segment, and
the segment's length as weight. -/
structure Edge where
  node : ℕ
  segment : Segment
  distance : ℚ
deriving DecidableEq

/-- A node record of the graph object: `coords` and the `neighbors` array. -/
structure NodeRec where
  coords : Coord
  neighbors : List Edge
deriving DecidableEq

/-- The `graph` object of the source, a map from node ids to node records,
embedded as an association list in insertion order. -/
abbrev Graph := List (ℕ × NodeRec)

/-- Association-list lookup, the embedding of a JS object/`Map` read
(first-inserted binding wins, as JS keys are unique). -/
def alookup {α β : Type} [DecidableEq α] (k : α) : List (α × β) → Option β
  | [] => none
  | p :: t => if p.1 = k then some p.2 else alookup k t

/-- The key set of an association list, in insertion order (`for ... in` and
`Object.keys` order of the source). -/
def keys {α β : Type} (l : List (α × β)) : List α := l.map Prod.fst

/-- The canonical-key component: `coordinate.toFixed(6)`, embedded as rounding
to an integer count of 1e-6 degrees.  (Two rationals agree on `toFixed(6)`
exactly when these integers agree, up to the `-0.000000` string degeneracy and
decimal-tie direction, neither of which arises on the inputs considered.) -/
def fix6 (q : ℚ) : ℤ := round (q * 1000000)

/-- The node-map key `` `${lat.toFixed(6)},${lng.toFixed(6)}` ``. -/
def nodeKey (c : Coord) : ℤ × ℤ := (fix6 c.1, fix6 c.2)

/-- The `nodeMap.has`/`set`/`get` sequence of `buildGraph`: return the node id
for `key`, allocating `node_<counter>` on first sight. -/
def getNodeId (m : List ((ℤ × ℤ) × ℕ)) (ctr : ℕ) (key : ℤ × ℤ) :
    ℕ × List ((ℤ × ℤ) × ℕ) × ℕ :=
  match alookup key m with
  | some i => (i, m, ctr)
  | none => (ctr, m ++ [(key, ctr)], ctr + 1)

/-- The `if (!graph[node]) graph[node] = { coords, neighbors: [] }` step. -/
def ensureNode (g : Graph) (i : ℕ) (c : Coord) : Graph :=
  match alookup i g with
  | some _ => g
  | none => g ++ [(i, ⟨c, []⟩)]

/-- The `graph[node].neighbors.push(edge)` step: the keyed in-place update of
the node record at `i` (JS object keys are unique, so updating the entry for
`i` in place is the association-list rendering of the mutation). -/
def pushEdge : Graph → ℕ → Edge → Graph
  | [], _, _ => []
  | p :: t, i, e =>
    if p.1 = i then (p.1, ⟨p.2.coords, p.2.neighbors ++ [e]⟩) :: pushEdge t i e
    else p :: pushEdge t i e

/-- The mutable state threaded through `buildGraph`'s `forEach`. -/
structure BuildState where
  nodeMap : List ((ℤ × ℤ) × ℕ)
  counter : ℕ
  graph : Graph

/-- One iteration of `buildGraph`'s `segments.forEach`: canonicalize both
endpoints, allocate/reuse node ids, insert missing node records, and push the
bidirectional edge pair weighted by `segment.length`. -/
def addSegment (st : BuildState) (seg : Segment) : BuildState :=
  let r1 := getNodeId st.nodeMap st.counter (nodeKey seg.start)
  let startNode := r1.1
  let r2 := getNodeId r1.2.1 r1.2.2 (nodeKey seg.stop)
  let endNode := r2.1
  let g1 := ensureNode st.graph startNode seg.start
  let g2 := ensureNode g1 endNode seg.stop
  let g3 := pushEdge g2 startNode ⟨endNode, seg, seg.length⟩
  let g4 := pushEdge g3 endNode ⟨startNode, seg, seg.length⟩
  ⟨r2.2.1, r2.2.2, g4⟩

/-- `buildGraph(segments)` up to its full returned state
`{ graph, nodeMap, segments }`. -/
def buildGraphState (segments : List Segment) : BuildState :=
  segments.foldl addSegment ⟨[], 0, []⟩

/-- The `graph` component of `buildGraph(segments)`. -/
def buildGraph (segments : List Segment) : Graph :=
  (buildGraphState segments).graph

/-- Total number of directed edges of a graph. -/
def totalEdges (g : Graph) : ℕ := (g.map (fun p => p.2.neighbors.length)).sum

/-- Edge symmetry: every stored edge carries its segment's length as weight,
and has a reverse edge at its target node with the same segment and weight. -/
def Symm (g : Graph) : Prop :=
  ∀ a nr, alookup a g = some nr → ∀ e ∈ nr.neighbors,
    e.distance = e.segment.length ∧
    ∃ nr2, alookup e.node g = some nr2 ∧
      ∃ e2 ∈ nr2.neighbors,
        e2.node = a ∧ e2.segment = e.segment ∧ e2.distance = e.distance

/-- Strict comparison on `Infinity`-extended numbers (`none` is `Infinity`):
`a < Infinity` holds for finite `a`, `Infinity < x` never holds, matching the
JS comparisons against `Infinity` in the Dijkstra loops. -/
def oLt (x y : Option ℚ) : Prop :=
  match x, y with
  | some a, some b => a < b
  | some _, none => True
  | none, _ => False

instance oLt.decidable (x y : Option ℚ) : Decidable (oLt x y) :=
  match x, y with
  | some a, some b => inferInstanceAs (Decidable (a < b))
  | some _, none => inferInstanceAs (Decidable True)
  | none, some _ => inferInstanceAs (Decidable False)
  | none, none => inferInstanceAs (Decidable False)

/-- The linear minimum scan of the Dijkstra loop: `currentNode = null` and
`smallestDistance = Infinity` initially, updating on a strict decrease (so
the first node attaining the minimum wins, in iteration order). -/
def selectMin (dist : ℕ → Option ℚ) (l : List ℕ) : Option ℕ :=
  (l.foldl (fun acc n => if oLt (dist n) acc.2 then (some n, dist n) else acc)
    ((none : Option ℕ), (none : Option ℚ))).1

/-- One neighbor relaxation: skip targets no longer unvisited, compute
`alt = distances[currentNode] + cost(edge)` (`Infinity + x = Infinity`),
and update `distances`/`previous` on strict improvement. -/
def relaxStep (cost : Edge → ℚ) (cur : ℕ) (unv : List ℕ)
    (dp : (ℕ → Option ℚ) × (ℕ → Option ℕ)) (e : Edge) :
    (ℕ → Option ℚ) × (ℕ → Option ℕ) :=
  if e.node ∈ unv then
    let alt := (dp.1 cur).map (fun d => d + cost e)
    if oLt alt (dp.1 e.node) then
      (Function.update dp.1 e.node alt, Function.update dp.2 e.node (some cur))
    else dp
  else dp

/-- The relaxation loop over `graph[currentNode].neighbors`. -/
def relaxAll (cost : Edge → ℚ) (cur : ℕ) (edges : List Edge) (unv : List ℕ)
    (dp : (ℕ → Option ℚ) × (ℕ → Option ℕ)) :
    (ℕ → Option ℚ) × (ℕ → Option ℕ) :=
  edges.foldl (relaxStep cost cur unv) dp

/-- Path reconstruction:
`while (node !== null) { path.unshift(node); node = previous[node] }`.
The fuel bounds the chain length; the source would loop forever on a cyclic
`previous` map, which the fuel renders as `[]`, and `|graph| + 1` fuel covers
every run appearing below. -/
def reconstructPath : ℕ → (ℕ → Option ℕ) → ℕ → List ℕ
  | 0, _, _ => []
  | fuel + 1, prev, n =>
    match prev n with
    | none => [n]
    | some p => reconstructPath fuel prev p ++ [n]

/-- The Dijkstra loop shared by `findFastestPath` and `findSafestPath` (the
source duplicates this loop verbatim in the two functions, differing only in
the relaxed edge cost; the embedding factors it over `cost`).  The JS `while`
terminates because every iteration that neither breaks nor returns deletes
the selected node from `unvisited`; one fuel unit is spent per iteration, so
`|unvisited| + 1` units are never exhausted. -/
def dijkstraLoop (g : Graph) (cost : Edge → ℚ) (endN : ℕ) :
    ℕ → (ℕ → Option ℚ) → (ℕ → Option ℕ) → List ℕ → List ℕ
  | 0, _, _, _ => []
  | fuel + 1, dist, prev, unv =>
    match selectMin dist unv with
    | none => []
    | some cur =>
      if dist cur = none then []
      else if cur = endN then reconstructPath (g.length + 1) prev endN
      else
        let unv2 := unv.erase cur
        let dp := relaxAll cost cur
          (((alookup cur g).map (fun nr => nr.neighbors)).getD []) unv2
          (dist, prev)
        dijkstraLoop g cost endN fuel dp.1 dp.2 unv2

/-- Initialization shared by the two Dijkstra variants:
`distances[n] = Infinity` with `distances[startNode] = 0`,
`previous[n] = null`, and `unvisited` holding the graph's keys in insertion
order. -/
def dijkstra (g : Graph) (cost : Edge → ℚ) (startN endN : ℕ) : List ℕ :=
  dijkstraLoop g cost endN ((keys g).length + 1)
    (fun n => if n = startN then some 0 else none) (fun _ => none) (keys g)

/-- `findFastestPath(graph, startNode, endNode)`: Dijkstra over the raw edge
distance `neighbor.distance`. -/
def findFastestPath (g : Graph) (startN endN : ℕ) : List ℕ :=
  dijkstra g (fun e => e.distance) startN endN

/-- `findSafestPath(graph, startNode, endNode, currentHour)` (later revision):
Dijkstra over the clamped safety-weighted cost under the hour-resolved
day/night weight profile. -/
def findSafestPath (g : Graph) (startN endN : ℕ) (currentHour : ℤ) : List ℕ :=
  dijkstra g (fun e => edgeCost (safestWeights currentHour).1
    (safestWeights currentHour).2 e.distance e.segment.scores) startN endN

/-- Reachability along stored edges: the specification-side notion of one node
being connected to another through the graph's neighbor lists. -/
inductive Reachable (g : Graph) (s : ℕ) : ℕ → Prop
  | refl : Reachable g s s
  | tail {b c : ℕ} : Reachable g s b →
      (∃ nr, alookup b g = some nr ∧ ∃ e ∈ nr.neighbors, e.node = c) →
      Reachable g s c

/-- Invariant of the Dijkstra loop: only nodes reachable from the start ever
hold a finite tentative distance. -/
def DistInv (g : Graph) (s : ℕ) (dist : ℕ → Option ℚ) : Prop :=
  ∀ n q, dist n = some q → Reachable g s n

/-- Accumulated distance of a node-id path: sum over consecutive hops of the
distance of the first stored edge between the two nodes (`0` when absent);
paths with fewer than two nodes accumulate `0`. -/
def pathDistance (g : Graph) : List ℕ → ℚ
  | a :: b :: t =>
    (((alookup a g).bind (fun nr =>
      (nr.neighbors.find? (fun e => e.node == b)).map
        (fun e => e.distance))).getD 0) + pathDistance g (b :: t)
  | _ => 0

/-- The segment id `pathToCoordinates` traverses for the hop `a → b`: the
first edge of `a`'s neighbor list whose target is `b`
(`node.neighbors.find(n => n.node === nextNode)` in the source). -/
def usedSegmentSid (g : Graph) (a b : ℕ) : Option ℕ :=
  (alookup a g).bind (fun nr =>
    (nr.neighbors.find? (fun e => e.node == b)).map (fun e => e.segment.sid))

/-- Targets of a node's neighbor list, for concrete reachability arguments. -/
def neighborTargets (g : Graph) (a : ℕ) : List ℕ :=
  ((alookup a g).map (fun nr => nr.neighbors.map (fun e => e.node))).getD []

/-- One hop of `pathToCoordinates`: `i0` is the `i === 0` flag of the loop.
`dist` abstracts the Haversine `calculateDistance` (see the file docstring).
A missing current node is the `continue` of the source; a missing connecting
edge falls back to the straight two-point connector.  (On an empty stored
coordinate array the source would fault reading `coords[0]`; the embedding
supplies an inert default there, never reached in this development.) -/
def hopCoords (dist : Coord → Coord → ℚ) (g : Graph) (i0 : Bool)
    (cur next : ℕ) : List Coord :=
  match alookup cur g with
  | none => []
  | some node =>
    match node.neighbors.find? (fun n => n.node == next) with
    | some nb =>
      let coords := nb.segment.coordinates
      let startDist := dist (coords.head?.getD (0, 0)) node.coords
      let endDist := dist (coords.getLast?.getD (0, 0)) node.coords
      if endDist < startDist then
        (if i0 then coords.reverse else coords.dropLast.reverse)
      else
        (if i0 then coords else coords.drop 1)
    | none =>
      match alookup next g with
      | some nextNode => (if i0 then [node.coords] else []) ++ [nextNode.coords]
      | none => []

/-- The loop of `pathToCoordinates` over consecutive node pairs. -/
def hopFold (dist : Coord → Coord → ℚ) (g : Graph) : Bool → List ℕ → List Coord
  | i0, a :: b :: t => hopCoords dist g i0 a b ++ hopFold dist g false (b :: t)
  | _, _ => []

/-- `pathToCoordinates(pathNodeIds, graph)`: paths with fewer than two nodes
yield `[]`; otherwise the hops are assembled and the final node's coordinate
is appended when a gap above `0.001` remains. -/
def pathToCoordinates (dist : Coord → Coord → ℚ) (pathNodeIds : List ℕ)
    (g : Graph) : List Coord :=
  if pathNodeIds.length < 2 then []
  else
    let fullPath := hopFold dist g true pathNodeIds
    match alookup (pathNodeIds.getLastD 0) g with
    | none => fullPath
    | some lastNode =>
      match fullPath.getLast? with
      | none => fullPath
      | some lastCoord =>
        if 1 / 1000 < dist lastCoord lastNode.coords then
          fullPath ++ [lastNode.coords]
        else fullPath

/-- The `!pathNodeIds` guard of the source, for a `null` path argument. -/
def pathToCoordinatesOpt (dist : Coord → Coord → ℚ)
    (pathNodeIds : Option (List ℕ)) (g : Graph) : List Coord :=
  match pathNodeIds with
  | none => []
  | some p => pathToCoordinates dist p g

/-- Computable stand-in distance for concrete evaluations: squared planar
distance.  It satisfies every sign property the theorems assume of the
abstracted Haversine distance, and agrees with the Haversine comparisons on
all concrete comparisons below. -/
def sqDist (a b : Coord) : ℚ := (a.1 - b.1) ^ 2 + (a.2 - b.2) ^ 2

/-- Concrete segment from `(0,0)` to `(1,1)`, used in example graphs. -/
def segD1 : Segment :=
  ⟨1, [(0, 0), (1, 1)], 1, (0, 0), (1, 1), ⟨9, 5, 3, 8, 0⟩⟩

/-- Concrete segment far from `segD1`, giving a second graph component. -/
def segD2 : Segment :=
  ⟨2, [(5, 5), (6, 6)], 1, (5, 5), (6, 6), ⟨4, 3, 3, 4, 0⟩⟩

/-- A disconnected two-component graph: nodes `0, 1` from `segD1` and
`2, 3` from `segD2`. -/
def gD : Graph := buildGraph [segD1, segD2]

/-- A single-segment graph used by witnesses. -/
def gW1 : Graph := buildGraph [segD1]

/-- §8 example coordinate of node `P1`. -/
def P1 : Coord := (49280 / 1000, -123120 / 1000)

/-- §8 example coordinate of node `P2`. -/
def P2 : Coord := (49281 / 1000, -123119 / 1000)

/-- §8 example Segment1: `P1 → P2`, length `0.12`, scores
`{infra: 9, light: 9, crime: 1, amenity: 8, disruption: 0}`. -/
def seg51 : Segment := ⟨51, [P1, P2], 12 / 100, P1, P2, ⟨9, 9, 1, 8, 0⟩⟩

/-- §8 example Segment2: `P1 → P2`, length `0.10`, scores
`{infra: 4, light: 3, crime: 8, amenity: 4, disruption: 0}`. -/
def seg52 : Segment := ⟨52, [P1, P2], 10 / 100, P1, P2, ⟨4, 3, 8, 4, 0⟩⟩

/-- The §8 example graph: two parallel edges between the nodes of `P1` and
`P2`. -/
def g5 : Graph := buildGraph [seg51, seg52]

/-- C8 counterexample segment: its start coordinate `(1e-7, 0)` canonicalizes
to the same `toFixed(6)` key as `(0, 0)` without being equal to it. -/
def segB8 : Segment :=
  ⟨8, [(1 / 10000000, 0), (2, 2)], 3, (1 / 10000000, 0), (2, 2), ⟨4, 3, 3, 4, 0⟩⟩

/-- C8 counterexample graph: `segD1` creates node `0` with stored coordinate
`(0, 0)`; `segB8`'s start collides onto node `0` while its exact coordinate
differs from the stored one. -/
def gC8 : Graph := buildGraph [segD1, segB8]

/-- Clamping to the `0.1` floor is monotone. -/
theorem clamp_mono {a b : ℚ} (h : a ≤ b) : max (1 / 10) a ≤ max (1 / 10) b :=
  max_le_max le_rfl h

/-- Clamping to the `0.1` floor is strictly monotone as soon as the larger
pre-clamp value lies above the floor. -/
theorem clamp_strict {a b : ℚ} (h : a < b) (hb : 1 / 10 < b) :
    max (1 / 10) a < max (1 / 10) b := by
  have hmax : max (1 / 10) a < b := max_lt hb h
  calc max (1 / 10) a < b := hmax
    _ ≤ max (1 / 10) b := le_max_right _ _

/-- Updating `infra` shifts the safety score by `W_INFRASTRUCTURE * δ`. -/
theorem safetyScore_set_infra (lw cw δ : ℚ) (s : Scores) :
    safetyScore lw cw { s with infra := s.infra + δ } =
      safetyScore lw cw s + W_INFRASTRUCTURE * δ := by
  simp only [safetyScore]; ring

/-- Updating `light` shifts the safety score by `lightWeight * δ`. -/
theorem safetyScore_set_light (lw cw δ : ℚ) (s : Scores) :
    safetyScore lw cw { s with light := s.light + δ } =
      safetyScore lw cw s + lw * δ := by
  simp only [safetyScore]; ring

/-- Updating `amenity` shifts the safety score by `W_AMENITY * δ`. -/
theorem safetyScore_set_amenity (lw cw δ : ℚ) (s : Scores) :
    safetyScore lw cw { s with amenity := s.amenity + δ } =
      safetyScore lw cw s + W_AMENITY * δ := by
  simp only [safetyScore]; ring

/-- Updating `crime` shifts the safety score by `crimeWeight * δ`. -/
theorem safetyScore_set_crime (lw cw δ : ℚ) (s : Scores) :
    safetyScore lw cw { s with crime := s.crime + δ } =
      safetyScore lw cw s + cw * δ := by
  simp only [safetyScore]; ring

/-- Updating `disruption` shifts the safety score by `W_DISRUPTION * δ`. -/
theorem safetyScore_set_disruption (lw cw δ : ℚ) (s : Scores) :
    safetyScore lw cw { s with disruption := s.disruption + δ } =
      safetyScore lw cw s + W_DISRUPTION * δ := by
  simp only [safetyScore]; ring

/-- A larger safety score gives a (weakly) smaller earlier-revision day cost. -/
theorem dayCostV1_aux {x y : ℚ} (h : x ≤ y) (d : ℚ) :
    max (1 / 10) (d + max 0 (5 - y) * (15 / 100)) ≤
      max (1 / 10) (d + max 0 (5 - x) * (15 / 100)) := by
  apply clamp_mono
  have hm : max 0 (5 - y) ≤ max 0 (5 - x) := max_le_max le_rfl (by linarith)
  nlinarith [hm]

/-- C1: every safety-weighted traversal cost relaxed by `findSafestPath` is
clamped to `Math.max(0.1, cost)`, hence strictly positive, for every weight
profile (in particular both the night and the day regime), every distance and
every score record; the earlier revision's day cost is likewise positive. -/
theorem safety_weighted_cost_positive :
    ∀ (lightWeight crimeWeight distance : ℚ) (s : Scores),
      0 < edgeCost lightWeight crimeWeight distance s ∧
      0 < dayCostV1 distance s := by
  intro lw cw d s
  constructor
  · exact lt_of_lt_of_le (by norm_num) (le_max_left _ _)
  · exact lt_of_lt_of_le (by norm_num) (le_max_left _ _)

/-- C2, counterexample: strict monotonicity fails because of the `0.1` clamp.
At night (`safestWeights 22`), with distance `0.1`, the edge with
`infra = 10` and the otherwise-identical edge with `infra = 9` both clamp to
the floor `0.1`, so raising `infra` does not strictly lower the cost. -/
theorem edgeCost_strict_monotonicity_fails :
    safestWeights 22 = (W_LIGHTING, W_CRIME * (3 / 2)) ∧
    edgeCost W_LIGHTING (W_CRIME * (3 / 2)) (1 / 10) ⟨10, 5, 3, 4, 0⟩ = 1 / 10 ∧
    edgeCost W_LIGHTING (W_CRIME * (3 / 2)) (1 / 10) ⟨9, 5, 3, 4, 0⟩ = 1 / 10 ∧
    ¬ edgeCost W_LIGHTING (W_CRIME * (3 / 2)) (1 / 10) ⟨10, 5, 3, 4, 0⟩ <
        edgeCost W_LIGHTING (W_CRIME * (3 / 2)) (1 / 10) ⟨9, 5, 3, 4, 0⟩ := by
  refine ⟨rfl, ?_, ?_, ?_⟩ <;>
    norm_num [edgeCost, rawCost, safetyScore, W_INFRASTRUCTURE, W_LIGHTING,
      W_AMENITY, W_CRIME, W_DISRUPTION]

/-- C2 (amended): for the linear cost formula, with a positive lighting weight
and a negative crime weight (true of both regimes of the later revision and
the night regime of the earlier one), raising `infra`, `light` or `amenity`
weakly lowers the clamped cost and raising `crime` or `disruption` weakly
raises it; each comparison is strict exactly under the extra condition that
the less-safe edge's pre-clamp cost lies above the `0.1` floor.  The earlier
revision's day cost is weakly monotone in the same directions (its penalty
term saturates at `0` once the safety score reaches `5`, so no strictness
holds there). -/
theorem edgeCost_score_monotone (lw cw d : ℚ) (hlw : 0 < lw) (hcw : cw < 0)
    (s : Scores) (δ : ℚ) (hδ : 0 < δ) :
    (edgeCost lw cw d { s with infra := s.infra + δ } ≤ edgeCost lw cw d s) ∧
    (edgeCost lw cw d { s with light := s.light + δ } ≤ edgeCost lw cw d s) ∧
    (edgeCost lw cw d { s with amenity := s.amenity + δ } ≤ edgeCost lw cw d s) ∧
    (edgeCost lw cw d s ≤ edgeCost lw cw d { s with crime := s.crime + δ }) ∧
    (edgeCost lw cw d s ≤ edgeCost lw cw d { s with disruption := s.disruption + δ }) ∧
    (1 / 10 < rawCost lw cw d s →
      edgeCost lw cw d { s with infra := s.infra + δ } < edgeCost lw cw d s ∧
      edgeCost lw cw d { s with light := s.light + δ } < edgeCost lw cw d s ∧
      edgeCost lw cw d { s with amenity := s.amenity + δ } < edgeCost lw cw d s) ∧
    (1 / 10 < rawCost lw cw d { s with crime := s.crime + δ } →
      edgeCost lw cw d s < edgeCost lw cw d { s with crime := s.crime + δ }) ∧
    (1 / 10 < rawCost lw cw d { s with disruption := s.disruption + δ } →
      edgeCost lw cw d s < edgeCost lw cw d { s with disruption := s.disruption + δ }) ∧
    (dayCostV1 d { s with infra := s.infra + δ } ≤ dayCostV1 d s) ∧
    (dayCostV1 d { s with light := s.light + δ } ≤ dayCostV1 d s) ∧
    (dayCostV1 d { s with amenity := s.amenity + δ } ≤ dayCostV1 d s) ∧
    (dayCostV1 d s ≤ dayCostV1 d { s with crime := s.crime + δ }) ∧
    (dayCostV1 d s ≤ dayCostV1 d { s with disruption := s.disruption + δ }) := by
  have hprod : 0 < lw * δ := mul_pos hlw hδ
  have hcrime : cw * δ < 0 := mul_neg_of_neg_of_pos hcw hδ
  have hinfra : rawCost lw cw d { s with infra := s.infra + δ } =
      rawCost lw cw d s - W_INFRASTRUCTURE * δ * (1 / 10) := by
    simp only [rawCost, safetyScore_set_infra]; ring
  have hlight : rawCost lw cw d { s with light := s.light + δ } =
      rawCost lw cw d s - lw * δ * (1 / 10) := by
    simp only [rawCost, safetyScore_set_light]; ring
  have hamen : rawCost lw cw d { s with amenity := s.amenity + δ } =
      rawCost lw cw d s - W_AMENITY * δ * (1 / 10) := by
    simp only [rawCost, safetyScore_set_amenity]; ring
  have hcr : rawCost lw cw d { s with crime := s.crime + δ } =
      rawCost lw cw d s - cw * δ * (1 / 10) := by
    simp only [rawCost, safetyScore_set_crime]; ring
  have hdis : rawCost lw cw d { s with disruption := s.disruption + δ } =
      rawCost lw cw d s - W_DISRUPTION * δ * (1 / 10) := by
    simp only [rawCost, safetyScore_set_disruption]; ring
  have hWI : (0 : ℚ) < W_INFRASTRUCTURE * δ := by
    have : (0 : ℚ) < W_INFRASTRUCTURE := by norm_num [W_INFRASTRUCTURE]
    exact mul_pos this hδ
  have hWA : (0 : ℚ) < W_AMENITY * δ := by
    have : (0 : ℚ) < W_AMENITY := by norm_num [W_AMENITY]
    exact mul_pos this hδ
  have hWD : W_DISRUPTION * δ < 0 := by
    have : W_DISRUPTION < (0 : ℚ) := by norm_num [W_DISRUPTION]
    exact mul_neg_of_neg_of_pos this hδ
  refine ⟨?_, ?_, ?_, ?_, ?_, ?_, ?_, ?_, ?_, ?_, ?_, ?_, ?_⟩
  · exact clamp_mono (by rw [hinfra]; linarith)
  · exact clamp_mono (by rw [hlight]; linarith)
  · exact clamp_mono (by rw [hamen]; linarith)
  · exact clamp_mono (by rw [hcr]; linarith)
  · exact clamp_mono (by rw [hdis]; linarith)
  · intro hfloor
    refine ⟨?_, ?_, ?_⟩
    · exact clamp_strict (by rw [hinfra]; linarith) hfloor
    · exact clamp_strict (by rw [hlight]; linarith) hfloor
    · exact clamp_strict (by rw [hamen]; linarith) hfloor
  · intro hfloor
    exact clamp_strict (by rw [hcr] at hfloor ⊢; linarith) hfloor
  · intro hfloor
    exact clamp_strict (by rw [hdis] at hfloor ⊢; linarith) hfloor
  · simp only [dayCostV1, dayRawCostV1, safetyScore_set_infra]
    exact dayCostV1_aux (by linarith) d
  · have hLδ : (0 : ℚ) < (1 / 10) * δ := by positivity
    simp only [dayCostV1, dayRawCostV1, safetyScore_set_light]
    exact dayCostV1_aux (by linarith) d
  · simp only [dayCostV1, dayRawCostV1, safetyScore_set_amenity]
    exact dayCostV1_aux (by linarith) d
  · have hWCδ : W_CRIME * δ < 0 :=
      mul_neg_of_neg_of_pos (by norm_num [W_CRIME]) hδ
    simp only [dayCostV1, dayRawCostV1, safetyScore_set_crime]
    exact dayCostV1_aux (by linarith) d
  · simp only [dayCostV1, dayRawCostV1, safetyScore_set_disruption]
    exact dayCostV1_aux (by linarith) d

/-- C2 witness: concrete instantiation of `edgeCost_score_monotone` at the
night profile `(2, -4.5)`, distance `10`, `δ = 1`, exercising the strict
`infra` case (the pre-clamp cost `8.25` lies above the floor). -/
theorem edgeCost_score_monotone_witness :
    (0 : ℚ) < 2 ∧ (-9 / 2 : ℚ) < 0 ∧ (0 : ℚ) < 1 ∧
    1 / 10 < rawCost 2 (-9 / 2) 10 sW ∧
    edgeCost 2 (-9 / 2) 10 { sW with infra := sW.infra + 1 } <
      edgeCost 2 (-9 / 2) 10 sW :=
  ⟨by norm_num, by norm_num, by norm_num,
    by norm_num [rawCost, safetyScore, sW, W_INFRASTRUCTURE, W_AMENITY, W_DISRUPTION],
    ((edgeCost_score_monotone 2 (-9 / 2) 10 (by norm_num) (by norm_num) sW 1
        (by norm_num)).2.2.2.2.2.1
      (by norm_num [rawCost, safetyScore, sW, W_INFRASTRUCTURE, W_AMENITY,
        W_DISRUPTION])).1⟩

/-- C6: the hour-resolution bug.  `findSafestPath` computes
`hour = parseInt(currentHour) || 12`, so the valid night hour `0` (midnight)
is replaced by `12` and classified as day: the day profile
`(lightWeight, crimeWeight) = (0.1, W_CRIME)` is applied even though `0` lies
outside the day window `6 < h < 19`.  Every other hour in `1..23` is
classified exactly by the window, with the night profile amplifying the crime
weight by `1.5` at full lighting weight, and the day profile reducing the
lighting weight to `0.1` at the baseline crime weight. -/
theorem findSafestPath_midnight_day_regime_bug :
    isDayTimeHour 0 = true ∧
    safestWeights 0 = (1 / 10, W_CRIME) ∧
    ¬ (6 < (0 : ℤ) ∧ (0 : ℤ) < 19) ∧
    isDayTimeHour 22 = false ∧
    safestWeights 22 = (W_LIGHTING, W_CRIME * (3 / 2)) ∧
    isDayTimeHour 12 = true ∧
    safestWeights 12 = (1 / 10, W_CRIME) ∧
    isDayTimeHour 6 = false ∧ isDayTimeHour 19 = false ∧
    isDayTimeHour 7 = true ∧ isDayTimeHour 18 = true := by
  refine ⟨by decide, rfl, by decide, by decide, rfl, by decide, rfl,
    by decide, by decide, by decide, by decide⟩

/-- C9: a degenerate segment with coincident endpoints short-circuits on the
`lengthSquared === 0` guard and returns the coincident endpoint itself,
before the division by `lengthSquared` is ever reached; the function is total
on all inputs. -/
theorem findClosestPointOnSegment_degenerate :
    ∀ (point a : Coord), findClosestPointOnSegment point a a = a := by
  intro p a
  simp [findClosestPointOnSegment]

/-- Key sequence of a cons cell. -/
theorem keys_cons {α β : Type} (p : α × β) (t : List (α × β)) :
    keys (p :: t) = p.1 :: keys t := rfl

/-- Lookup misses exactly the absent keys. -/
theorem alookup_none_iff {α β : Type} [DecidableEq α] (k : α) (l : List (α × β)) :
    alookup k l = none ↔ k ∉ keys l := by
  induction l with
  | nil => simp [alookup, keys]
  | cons p t ih =>
    by_cases h : p.1 = k
    · subst h
      simp [alookup, keys_cons]
    · simp only [alookup, h, if_false, ih, keys_cons, List.mem_cons]
      constructor
      · intro hk hor
        rcases hor with h1 | h2
        · exact h h1.symm
        · exact hk h2
      · intro hk h2
        exact hk (Or.inr h2)

/-- A successful lookup witnesses key membership. -/
theorem mem_keys_of_alookup {α β : Type} [DecidableEq α] {k : α} {l : List (α × β)}
    {v : β} (h : alookup k l = some v) : k ∈ keys l := by
  by_contra hk
  rw [(alookup_none_iff k l).mpr hk] at h
  exact Option.noConfusion h

/-- Lookup into an append resolves in the left list when it hits there. -/
theorem alookup_append_of_some {α β : Type} [DecidableEq α] {k : α}
    {l₁ : List (α × β)} {v : β} (l₂ : List (α × β)) (h : alookup k l₁ = some v) :
    alookup k (l₁ ++ l₂) = some v := by
  induction l₁ with
  | nil => exact Option.noConfusion h
  | cons p t ih =>
    by_cases hp : p.1 = k
    · simp only [alookup, hp, if_true] at h
      simp only [List.cons_append, alookup, hp, if_true]
      exact h
    · simp only [alookup, hp, if_false] at h
      simp only [List.cons_append, alookup, hp, if_false]
      exact ih h

/-- Lookup into an append falls through to the right list on a left miss. -/
theorem alookup_append_of_none {α β : Type} [DecidableEq α] {k : α}
    {l₁ : List (α × β)} (l₂ : List (α × β)) (h : alookup k l₁ = none) :
    alookup k (l₁ ++ l₂) = alookup k l₂ := by
  induction l₁ with
  | nil => rfl
  | cons p t ih =>
    by_cases hp : p.1 = k
    · simp only [alookup, hp, if_true] at h
      exact Option.noConfusion h
    · simp only [alookup, hp, if_false] at h
      simp only [List.cons_append, alookup, hp, if_false]
      exact ih h

/-- `pushEdge` leaves the key sequence unchanged. -/
theorem keys_pushEdge (g : Graph) (i : ℕ) (e : Edge) :
    keys (pushEdge g i e) = keys g := by
  induction g with
  | nil => rfl
  | cons p t ih =>
    by_cases hp : p.1 = i
    · simp only [pushEdge, hp, if_true, keys_cons]
      rw [ih]
    · simp only [pushEdge, hp, if_false, keys_cons]
      rw [ih]

/-- `pushEdge` appends the edge at the pushed key. -/
theorem alookup_pushEdge_self (g : Graph) (i : ℕ) (e : Edge) :
    alookup i (pushEdge g i e) =
      (alookup i g).map (fun nr => ⟨nr.coords, nr.neighbors ++ [e]⟩) := by
  induction g with
  | nil => rfl
  | cons p t ih =>
    by_cases hp : p.1 = i
    · simp only [pushEdge, hp, if_true, alookup]
      rfl
    · simp only [pushEdge, hp, if_false, alookup]
      exact ih

/-- `pushEdge` leaves every other key's record unchanged. -/
theorem alookup_pushEdge_ne (g : Graph) (i : ℕ) (e : Edge) {j : ℕ} (h : j ≠ i) :
    alookup j (pushEdge g i e) = alookup j g := by
  induction g with
  | nil => rfl
  | cons p t ih =>
    by_cases hp : p.1 = i
    · have hpj : ¬ p.1 = j := fun hc => h (by rw [← hc]; exact hp)
      simp only [pushEdge, if_pos hp]
      simp only [alookup, if_neg hpj]
      exact ih
    · simp only [pushEdge, if_neg hp]
      by_cases hpj : p.1 = j
      · simp only [alookup, if_pos hpj]
      · simp only [alookup, if_neg hpj]
        exact ih

/-- `ensureNode` is the identity when the node exists. -/
theorem ensureNode_of_some {g : Graph} {i : ℕ} (c : Coord) {nr : NodeRec}
    (h : alookup i g = some nr) : ensureNode g i c = g := by
  rw [ensureNode.eq_def, h]

/-- `ensureNode` appends a fresh empty record when the node is missing. -/
theorem ensureNode_of_none {g : Graph} {i : ℕ} (c : Coord)
    (h : alookup i g = none) : ensureNode g i c = g ++ [(i, ⟨c, []⟩)] := by
  rw [ensureNode.eq_def, h]

/-- `ensureNode` preserves every existing binding. -/
theorem alookup_ensureNode_preserve {g : Graph} {j : ℕ} {nr : NodeRec}
    (i : ℕ) (c : Coord) (h : alookup j g = some nr) :
    alookup j (ensureNode g i c) = some nr := by
  cases hh : alookup i g with
  | some v => rw [ensureNode_of_some c hh]; exact h
  | none => rw [ensureNode_of_none c hh]; exact alookup_append_of_some _ h

/-- After `ensureNode` the node is present. -/
theorem alookup_ensureNode_self (g : Graph) (i : ℕ) (c : Coord) :
    ∃ nr, alookup i (ensureNode g i c) = some nr := by
  cases hh : alookup i g with
  | some v => exact ⟨v, alookup_ensureNode_preserve i c hh⟩
  | none =>
    refine ⟨⟨c, []⟩, ?_⟩
    rw [ensureNode_of_none c hh, alookup_append_of_none _ hh]
    simp [alookup]

/-- `ensureNode` does not touch other keys. -/
theorem alookup_ensureNode_ne {g : Graph} (i : ℕ) (c : Coord) {j : ℕ}
    (h : j ≠ i) : alookup j (ensureNode g i c) = alookup j g := by
  cases hh : alookup i g with
  | some v => rw [ensureNode_of_some c hh]
  | none =>
    rw [ensureNode_of_none c hh]
    cases hj : alookup j g with
    | some v => exact alookup_append_of_some _ hj
    | none =>
      rw [alookup_append_of_none _ hj]
      have hij : ¬ i = j := fun hc => h hc.symm
      simp [alookup, hij]

/-- `ensureNode` keeps the key sequence duplicate-free. -/
theorem nodup_keys_ensureNode {g : Graph} (i : ℕ) (c : Coord)
    (h : (keys g).Nodup) : (keys (ensureNode g i c)).Nodup := by
  cases hh : alookup i g with
  | some v => rwa [ensureNode_of_some c hh]
  | none =>
    rw [ensureNode_of_none c hh]
    have hi : i ∉ keys g := (alookup_none_iff i g).mp hh
    simp only [keys, List.map_append, List.map_cons, List.map_nil]
    rw [List.nodup_append]
    refine ⟨h, List.nodup_singleton i, ?_⟩
    intro x hx hx1
    simp only [List.mem_singleton] at hx1
    exact hi (hx1 ▸ hx)

/-- Total edge count distributes over append. -/
theorem totalEdges_append (g h : Graph) :
    totalEdges (g ++ h) = totalEdges g + totalEdges h := by
  simp [totalEdges]

/-- `ensureNode` adds no edge. -/
theorem totalEdges_ensureNode (g : Graph) (i : ℕ) (c : Coord) :
    totalEdges (ensureNode g i c) = totalEdges g := by
  cases hh : alookup i g with
  | some v => rw [ensureNode_of_some c hh]
  | none => rw [ensureNode_of_none c hh, totalEdges_append]; simp [totalEdges]

/-- `pushEdge` at an absent key is the identity. -/
theorem pushEdge_of_not_mem {g : Graph} {i : ℕ} (e : Edge)
    (h : i ∉ keys g) : pushEdge g i e = g := by
  induction g with
  | nil => rfl
  | cons p t ih =>
    rw [keys_cons, List.mem_cons, not_or] at h
    have hp : ¬ p.1 = i := fun hc => h.1 hc.symm
    simp only [pushEdge, hp, if_false]
    rw [ih h.2]

/-- `pushEdge` at a present key of a duplicate-free graph adds exactly one
edge. -/
theorem totalEdges_pushEdge {g : Graph} {i : ℕ} (e : Edge)
    (hn : (keys g).Nodup) (hi : i ∈ keys g) :
    totalEdges (pushEdge g i e) = totalEdges g + 1 := by
  induction g with
  | nil => simp [keys] at hi
  | cons p t ih =>
    rw [keys_cons, List.nodup_cons] at hn
    by_cases hp : p.1 = i
    · have hit : i ∉ keys t := hp ▸ hn.1
      simp only [pushEdge, hp, if_true]
      rw [pushEdge_of_not_mem e hit]
      simp only [totalEdges, List.map_cons, List.sum_cons, List.length_append,
        List.length_singleton]
      omega
    · have hit : i ∈ keys t := by
        rw [keys_cons, List.mem_cons] at hi
        exact hi.resolve_left (fun hc => hp hc.symm)
      have hrec := ih hn.2 hit
      simp only [pushEdge, hp, if_false]
      simp only [totalEdges, List.map_cons, List.sum_cons] at hrec ⊢
      omega

/-- Decomposition of a lookup after `ensureNode`: either the binding existed
before, or it is the freshly inserted empty record. -/
theorem alookup_ensureNode_cases {g : Graph} {i : ℕ} {c : Coord} {j : ℕ}
    {nr : NodeRec} (h : alookup j (ensureNode g i c) = some nr) :
    alookup j g = some nr ∨ (j = i ∧ nr = ⟨c, []⟩) := by
  cases hh : alookup i g with
  | some v => rw [ensureNode_of_some c hh] at h; exact Or.inl h
  | none =>
    rw [ensureNode_of_none c hh] at h
    cases hj : alookup j g with
    | some v =>
      rw [alookup_append_of_some _ hj] at h
      exact Or.inl h
    | none =>
      rw [alookup_append_of_none _ hj] at h
      by_cases hij : i = j
      · subst hij
        simp only [alookup, if_pos rfl] at h
        exact Or.inr ⟨rfl, (Option.some_inj.mp h).symm⟩
      · simp only [alookup, if_neg hij] at h
        exact Option.noConfusion h

/-- A lookup survives `pushEdge` with a superset of neighbors, gaining the
pushed edge at the pushed key. -/
theorem alookup_pushEdge_mono {g : Graph} {i : ℕ} {e : Edge} {j : ℕ}
    {nr : NodeRec} (h : alookup j g = some nr) :
    ∃ nr', alookup j (pushEdge g i e) = some nr' ∧
      (∀ x ∈ nr.neighbors, x ∈ nr'.neighbors) ∧ (j = i → e ∈ nr'.neighbors) := by
  by_cases hji : j = i
  · subst hji
    refine ⟨⟨nr.coords, nr.neighbors ++ [e]⟩, ?_, ?_, ?_⟩
    · rw [alookup_pushEdge_self, h]; rfl
    · intro x hx; exact List.mem_append_left _ hx
    · intro _; exact List.mem_append_right _ (List.mem_singleton_self e)
  · refine ⟨nr, ?_, fun x hx => hx, fun hc => absurd hc hji⟩
    rw [alookup_pushEdge_ne _ _ _ hji]; exact h

/-- Conversely, every binding after `pushEdge` came from a binding before,
with at most the pushed edge added. -/
theorem alookup_pushEdge_cases {g : Graph} {i : ℕ} {e : Edge} {j : ℕ}
    {nr' : NodeRec} (h : alookup j (pushEdge g i e) = some nr') :
    ∃ nr, alookup j g = some nr ∧
      ∀ x ∈ nr'.neighbors, x ∈ nr.neighbors ∨ (j = i ∧ x = e) := by
  by_cases hji : j = i
  · subst hji
    rw [alookup_pushEdge_self] at h
    cases hgg : alookup j g with
    | none => rw [hgg] at h; exact Option.noConfusion h
    | some nr =>
      rw [hgg] at h
      refine ⟨nr, rfl, ?_⟩
      obtain rfl := Option.some_inj.mp h.symm
      intro x hx
      rcases List.mem_append.mp hx with hx' | hx'
      · exact Or.inl hx'
      · exact Or.inr ⟨rfl, List.mem_singleton.mp hx'⟩
  · rw [alookup_pushEdge_ne _ _ _ hji] at h
    exact ⟨nr', h, fun x hx => Or.inl hx⟩

/-- `ensureNode` preserves edge symmetry: the inserted record has no edges and
all existing records and back-edges survive. -/
theorem symm_ensureNode {g : Graph} (i : ℕ) (c : Coord) (hs : Symm g) :
    Symm (ensureNode g i c) := by
  intro a nr ha e he
  rcases alookup_ensureNode_cases ha with h0 | ⟨_, rfl⟩
  · obtain ⟨hdist, nrB, hB, eB, heB, hBn, hBs, hBd⟩ := hs a nr h0 e he
    exact ⟨hdist, nrB, alookup_ensureNode_preserve i c hB, eB, heB, hBn, hBs, hBd⟩
  · exact absurd he (List.not_mem_nil e)

/-- Pushing the two halves of a bidirectional edge between two present nodes
preserves edge symmetry. -/
theorem symm_pushEdge_pair {g : Graph} {sN eN : ℕ} (seg : Segment)
    {nrS nrE : NodeRec}
    (hS : alookup sN g = some nrS) (hE : alookup eN g = some nrE)
    (hs : Symm g) :
    Symm (pushEdge (pushEdge g sN ⟨eN, seg, seg.length⟩) eN
      ⟨sN, seg, seg.length⟩) := by
  have hmono : ∀ j nr, alookup j g = some nr →
      ∃ nr', alookup j (pushEdge (pushEdge g sN ⟨eN, seg, seg.length⟩) eN
          ⟨sN, seg, seg.length⟩) = some nr' ∧
        (∀ x ∈ nr.neighbors, x ∈ nr'.neighbors) ∧
        (j = sN → (⟨eN, seg, seg.length⟩ : Edge) ∈ nr'.neighbors) ∧
        (j = eN → (⟨sN, seg, seg.length⟩ : Edge) ∈ nr'.neighbors) := by
    intro j nr hj
    obtain ⟨nrA, hA, hsubA, hpushA⟩ :=
      @alookup_pushEdge_mono g sN ⟨eN, seg, seg.length⟩ j nr hj
    obtain ⟨nrB, hB, hsubB, hpushB⟩ :=
      @alookup_pushEdge_mono (pushEdge g sN ⟨eN, seg, seg.length⟩) eN
        ⟨sN, seg, seg.length⟩ j nrA hA
    exact ⟨nrB, hB, fun x hx => hsubB _ (hsubA _ hx),
      fun hjs => hsubB _ (hpushA hjs), hpushB⟩
  intro a nr4 ha4 e he
  obtain ⟨nr3, h3, hb4⟩ := alookup_pushEdge_cases ha4
  obtain ⟨nr2, h2, hb3⟩ := alookup_pushEdge_cases h3
  rcases hb4 e he with hmem3 | ⟨haE, rfl⟩
  · rcases hb3 e hmem3 with hmem2 | ⟨haS, rfl⟩
    · obtain ⟨hdist, nrB0, hB0, eB, heB, hBn, hBs, hBd⟩ := hs a nr2 h2 e hmem2
      obtain ⟨nrB', hB', hsubB, _, _⟩ := hmono _ _ hB0
      exact ⟨hdist, nrB', hB', eB, hsubB _ heB, hBn, hBs, hBd⟩
    · refine ⟨rfl, ?_⟩
      obtain ⟨nrB', hB', _, _, hpushE⟩ := hmono eN nrE hE
      exact ⟨nrB', hB', ⟨sN, seg, seg.length⟩, hpushE rfl, haS.symm, rfl, rfl⟩
  · refine ⟨rfl, ?_⟩
    obtain ⟨nrB', hB', _, hpushS, _⟩ := hmono sN nrS hS
    exact ⟨nrB', hB', ⟨eN, seg, seg.length⟩, hpushS rfl, haE.symm, rfl, rfl⟩

/-- The graph transformation of one `addSegment` iteration preserves
duplicate-freeness and symmetry and adds exactly two edges. -/
theorem graphStep_invariant (g : Graph) (sN eN : ℕ) (cs ce : Coord)
    (seg : Segment) (hn : (keys g).Nodup) (hs : Symm g) :
    (keys (pushEdge (pushEdge (ensureNode (ensureNode g sN cs) eN ce) sN
        ⟨eN, seg, seg.length⟩) eN ⟨sN, seg, seg.length⟩)).Nodup ∧
    Symm (pushEdge (pushEdge (ensureNode (ensureNode g sN cs) eN ce) sN
        ⟨eN, seg, seg.length⟩) eN ⟨sN, seg, seg.length⟩) ∧
    totalEdges (pushEdge (pushEdge (ensureNode (ensureNode g sN cs) eN ce) sN
        ⟨eN, seg, seg.length⟩) eN ⟨sN, seg, seg.length⟩) = totalEdges g + 2 := by
  obtain ⟨nrS1, hS1⟩ := alookup_ensureNode_self g sN cs
  have hS2 : alookup sN (ensureNode (ensureNode g sN cs) eN ce) = some nrS1 :=
    alookup_ensureNode_preserve eN ce hS1
  obtain ⟨nrE2, hE2⟩ := alookup_ensureNode_self (ensureNode g sN cs) eN ce
  have hn2 : (keys (ensureNode (ensureNode g sN cs) eN ce)).Nodup :=
    nodup_keys_ensureNode eN ce (nodup_keys_ensureNode sN cs hn)
  have hs2 : Symm (ensureNode (ensureNode g sN cs) eN ce) :=
    symm_ensureNode eN ce (symm_ensureNode sN cs hs)
  refine ⟨?_, ?_, ?_⟩
  · rw [keys_pushEdge, keys_pushEdge]; exact hn2
  · exact symm_pushEdge_pair seg hS2 hE2 hs2
  · have h1 : totalEdges (pushEdge (ensureNode (ensureNode g sN cs) eN ce) sN
        ⟨eN, seg, seg.length⟩) =
        totalEdges (ensureNode (ensureNode g sN cs) eN ce) + 1 :=
      totalEdges_pushEdge _ hn2 (mem_keys_of_alookup hS2)
    have hn3 : (keys (pushEdge (ensureNode (ensureNode g sN cs) eN ce) sN
        ⟨eN, seg, seg.length⟩)).Nodup := by
      rw [keys_pushEdge]; exact hn2
    have hm3 : eN ∈ keys (pushEdge (ensureNode (ensureNode g sN cs) eN ce) sN
        ⟨eN, seg, seg.length⟩) := by
      rw [keys_pushEdge]; exact mem_keys_of_alookup hE2
    have h2 : totalEdges (pushEdge (pushEdge (ensureNode (ensureNode g sN cs)
        eN ce) sN ⟨eN, seg, seg.length⟩) eN ⟨sN, seg, seg.length⟩) =
        totalEdges (pushEdge (ensureNode (ensureNode g sN cs) eN ce) sN
          ⟨eN, seg, seg.length⟩) + 1 :=
      totalEdges_pushEdge _ hn3 hm3
    rw [h2, h1, totalEdges_ensureNode, totalEdges_ensureNode]

/-- One `forEach` iteration of `buildGraph` preserves the invariants. -/
theorem addSegment_invariant (st : BuildState) (seg : Segment)
    (hn : (keys st.graph).Nodup) (hs : Symm st.graph) :
    (keys (addSegment st seg).graph).Nodup ∧ Symm (addSegment st seg).graph ∧
    totalEdges (addSegment st seg).graph = totalEdges st.graph + 2 :=
  graphStep_invariant st.graph _ _ _ _ seg hn hs

/-- Folding `addSegment` over any segment list preserves the invariants and
adds two edges per segment. -/
theorem buildGraph_foldl_invariant (segments : List Segment) :
    ∀ st : BuildState, (keys st.graph).Nodup → Symm st.graph →
      (keys (segments.foldl addSegment st).graph).Nodup ∧
      Symm ((segments.foldl addSegment st).graph) ∧
      totalEdges ((segments.foldl addSegment st).graph) =
        totalEdges st.graph + 2 * segments.length := by
  induction segments with
  | nil => intro st hn hs; exact ⟨hn, hs, by simp⟩
  | cons seg rest ih =>
    intro st hn hs
    obtain ⟨hn', hs', ht'⟩ := addSegment_invariant st seg hn hs
    obtain ⟨hn2, hs2, ht2⟩ := ih (addSegment st seg) hn' hs'
    refine ⟨hn2, hs2, ?_⟩
    rw [List.foldl_cons, ht2, ht', List.length_cons]
    ring

/-- C3: for every list of segments, the graph returned by `buildGraph` is
edge-symmetric — every stored edge carries its segment's length as weight and
has a reverse edge at its target node with the same segment and the same
weight — and each segment contributes exactly two directed edges, so the edge
total is twice the segment count. -/
theorem buildGraph_symmetric (segments : List Segment) :
    Symm (buildGraph segments) ∧
    totalEdges (buildGraph segments) = 2 * segments.length := by
  have hnil : Symm ([] : Graph) := fun a nr h => Option.noConfusion h
  have h := buildGraph_foldl_invariant segments ⟨[], 0, []⟩ List.nodup_nil hnil
  refine ⟨h.2.1, ?_⟩
  have ht := h.2.2
  simpa [buildGraph, buildGraphState, totalEdges] using ht

/-- Concrete value of the disconnected example graph. -/
theorem gD_eval : gD =
    [(0, ⟨(0, 0), [⟨1, segD1, 1⟩]⟩),
     (1, ⟨(1, 1), [⟨0, segD1, 1⟩]⟩),
     (2, ⟨(5, 5), [⟨3, segD2, 1⟩]⟩),
     (3, ⟨(6, 6), [⟨2, segD2, 1⟩]⟩)] := by
  norm_num [gD, buildGraph, buildGraphState, addSegment, getNodeId, ensureNode,
    pushEdge, alookup, nodeKey, fix6, segD1, segD2, round_eq, Prod.mk.injEq,
    -Prod.mk_zero_zero, -Prod.mk_one_one]

/-- Concrete value of the single-segment witness graph's key list. -/
theorem gW1_keys : keys gW1 = [0, 1] := by
  norm_num [gW1, buildGraph, buildGraphState, addSegment, getNodeId, ensureNode,
    pushEdge, alookup, nodeKey, fix6, segD1, keys, round_eq, Prod.mk.injEq,
    -Prod.mk_zero_zero, -Prod.mk_one_one]

/-- The minimum scan never moves off an accumulator that nothing beats. -/
theorem foldl_selectMin_const (dist : ℕ → Option ℚ) (acc : Option ℕ × Option ℚ)
    (l : List ℕ) (h : ∀ n ∈ l, ¬ oLt (dist n) acc.2) :
    l.foldl (fun acc n => if oLt (dist n) acc.2 then (some n, dist n) else acc)
      acc = acc := by
  induction l with
  | nil => rfl
  | cons m t ih =>
    rw [List.foldl_cons, if_neg (h m (List.mem_cons_self m t))]
    exact ih (fun n hn => h n (List.mem_cons_of_mem m hn))

/-- When the start node is the only node at finite distance (the initial
state), the minimum scan selects it. -/
theorem selectMin_start (dist : ℕ → Option ℚ) (X : ℕ) (l : List ℕ)
    (hX : X ∈ l) (hdX : dist X = some 0)
    (hothers : ∀ n ∈ l, n ≠ X → dist n = none) :
    selectMin dist l = some X := by
  induction l with
  | nil => cases hX
  | cons m t ih =>
    by_cases hm : m = X
    · rw [hm]
      unfold selectMin
      rw [List.foldl_cons, hdX,
        if_pos (show oLt (some (0 : ℚ))
          ((none : Option ℕ), (none : Option ℚ)).2 from trivial)]
      have hconst : t.foldl
          (fun acc n => if oLt (dist n) acc.2 then (some n, dist n) else acc)
          (some X, some (0 : ℚ)) = (some X, some 0) := by
        apply foldl_selectMin_const
        intro n hn
        by_cases hnX : n = X
        · rw [hnX, hdX]; simp [oLt]
        · rw [hothers n (List.mem_cons_of_mem m hn) hnX]; simp [oLt]
      rw [hconst]
    · have hmn : dist m = none := hothers m (List.mem_cons_self m t) hm
      have hX' : X ∈ t := by
        rcases List.mem_cons.mp hX with h1 | h1
        · exact absurd h1.symm hm
        · exact h1
      unfold selectMin
      rw [List.foldl_cons, hmn, if_neg (by simp [oLt])]
      exact ih hX' (fun n hn hnX => hothers n (List.mem_cons_of_mem m hn) hnX)

/-- Querying a present node against itself: the first Dijkstra iteration
selects the start at distance `0`, hits the destination test, and
reconstructs the single-node path. -/
theorem dijkstra_self (g : Graph) (cost : Edge → ℚ) (X : ℕ) (hX : X ∈ keys g) :
    dijkstra g cost X X = [X] := by
  have hsel : selectMin (fun n => if n = X then some 0 else none) (keys g) =
      some X :=
    selectMin_start _ X (keys g) hX (by simp) (fun n _ hn => by simp [hn])
  unfold dijkstra
  simp only [dijkstraLoop, hsel]
  norm_num [reconstructPath]
  exact Option.some_ne_none _

/-- C7: for every graph and every node `X` present in it,
`findFastestPath(graph, X, X)` returns the single-node path `[X]`, whose
accumulated distance is zero. -/
theorem findFastestPath_self_single (g : Graph) (X : ℕ) (hX : X ∈ keys g) :
    findFastestPath g X X = [X] ∧ pathDistance g (findFastestPath g X X) = 0 := by
  have h : findFastestPath g X X = [X] := dijkstra_self g _ X hX
  exact ⟨h, by rw [h]; rfl⟩

/-- C7 witness: `findFastestPath(gW1, 0, 0) = [0]` on the concrete
single-segment graph, whose node `0` is present. -/
theorem findFastestPath_self_single_witness :
    0 ∈ keys gW1 ∧ findFastestPath gW1 0 0 = [0] :=
  ⟨by rw [gW1_keys]; simp,
    (findFastestPath_self_single gW1 0 (by rw [gW1_keys]; simp)).1⟩

/-- A single relaxation step preserves the reachable-distances invariant:
an improvement writes `distances[currentNode] + cost`, which is finite only
when the current node already was, and the relaxed edge then witnesses
reachability of the target. -/
theorem relaxStep_distInv {g : Graph} {s cur : ℕ} {cost : Edge → ℚ}
    {unv : List ℕ} {dp : (ℕ → Option ℚ) × (ℕ → Option ℕ)} {e : Edge}
    (hinv : DistInv g s dp.1)
    (hedge : ∃ nr, alookup cur g = some nr ∧ e ∈ nr.neighbors) :
    DistInv g s (relaxStep cost cur unv dp e).1 := by
  simp only [relaxStep]
  by_cases hmem : e.node ∈ unv
  · rw [if_pos hmem]
    by_cases himp : oLt ((dp.1 cur).map (fun d => d + cost e)) (dp.1 e.node)
    · rw [if_pos himp]
      show DistInv g s
        (Function.update dp.1 e.node ((dp.1 cur).map (fun d => d + cost e)))
      intro n q hq
      by_cases hn : n = e.node
      · subst hn
        rw [Function.update_same] at hq
        cases hc : dp.1 cur with
        | none => rw [hc] at hq; exact Option.noConfusion hq
        | some qc =>
          rw [hc] at hq
          obtain ⟨nr, hnr, hm⟩ := hedge
          exact Reachable.tail (hinv cur qc hc) ⟨nr, hnr, e, hm, rfl⟩
      · rw [Function.update_noteq hn] at hq
        exact hinv n q hq
    · rw [if_neg himp]
      exact hinv
  · rw [if_neg hmem]
    exact hinv

/-- The whole relaxation loop preserves the invariant when every relaxed edge
really sits in the current node's neighbor list. -/
theorem relaxAll_distInv {g : Graph} {s : ℕ} (cost : Edge → ℚ) (cur : ℕ)
    (edges : List Edge) (unv : List ℕ) :
    ∀ dp : (ℕ → Option ℚ) × (ℕ → Option ℕ), DistInv g s dp.1 →
      (∀ e ∈ edges, ∃ nr, alookup cur g = some nr ∧ e ∈ nr.neighbors) →
      DistInv g s (relaxAll cost cur edges unv dp).1 := by
  induction edges with
  | nil => intro dp h _; exact h
  | cons e t ih =>
    intro dp hinv hedges
    have h1 : DistInv g s (relaxStep cost cur unv dp e).1 :=
      relaxStep_distInv hinv (hedges e (List.mem_cons_self e t))
    have h2 := ih (relaxStep cost cur unv dp e) h1
      (fun e' he' => hedges e' (List.mem_cons_of_mem e he'))
    simpa [relaxAll, List.foldl_cons] using h2

/-- Under the invariant, the Dijkstra loop can only return a non-empty path
after selecting the destination at a finite distance, which would make it
reachable; so an unreachable destination always produces `[]`. -/
theorem dijkstraLoop_unreachable (g : Graph) (cost : Edge → ℚ) (s endN : ℕ)
    (hnr : ¬ Reachable g s endN) :
    ∀ (fuel : ℕ) (dist : ℕ → Option ℚ) (prev : ℕ → Option ℕ) (unv : List ℕ),
      DistInv g s dist → dijkstraLoop g cost endN fuel dist prev unv = [] := by
  intro fuel
  induction fuel with
  | zero => intro dist prev unv _; rfl
  | succ fuel ih =>
    intro dist prev unv hinv
    simp only [dijkstraLoop]
    cases hsel : selectMin dist unv with
    | none => rfl
    | some cur =>
      dsimp only
      by_cases hdc : dist cur = none
      · rw [if_pos hdc]
      · rw [if_neg hdc]
        by_cases hce : cur = endN
        · exfalso
          cases hdd : dist cur with
          | none => exact hdc hdd
          | some q => exact hnr (hce ▸ hinv cur q hdd)
        · rw [if_neg hce]
          apply ih
          apply relaxAll_distInv cost cur _ _ (dist, prev) hinv
          intro e' he'
          cases hg : alookup cur g with
          | none => rw [hg] at he'; simp at he'
          | some nr =>
            rw [hg] at he'
            simp only [Option.map_some', Option.getD_some] at he'
            exact ⟨nr, rfl, he'⟩

/-- C4: for every graph and every pair of nodes whose destination is not
reachable from the start (for instance nodes of two disconnected
components), both `findFastestPath` and `findSafestPath` (at every hour)
return the empty path; the embedded functions are total, so neither throws. -/
theorem unreachable_empty_paths (g : Graph) (s e : ℕ) (h : ¬ Reachable g s e) :
    findFastestPath g s e = [] ∧ ∀ hour : ℤ, findSafestPath g s e hour = [] := by
  have hinit : DistInv g s (fun n => if n = s then some 0 else none) := by
    intro n q hq
    simp only at hq
    by_cases hn : n = s
    · subst hn; exact Reachable.refl
    · rw [if_neg hn] at hq; exact Option.noConfusion hq
  constructor
  · exact dijkstraLoop_unreachable g _ s e h _ _ _ _ hinit
  · intro hour
    exact dijkstraLoop_unreachable g _ s e h _ _ _ _ hinit

/-- Neighbor targets of the disconnected example graph. -/
theorem gD_targets : neighborTargets gD 0 = [1] ∧ neighborTargets gD 1 = [0] ∧
    neighborTargets gD 2 = [3] ∧ neighborTargets gD 3 = [2] := by
  refine ⟨?_, ?_, ?_, ?_⟩ <;> rw [gD_eval] <;>
    norm_num [neighborTargets, alookup, segD1, segD2]

/-- Everything reachable from node `0` of `gD` stays in its component. -/
theorem gD_reach_bound : ∀ n, Reachable gD 0 n → n = 0 ∨ n = 1 := by
  intro n h
  induction h with
  | refl => exact Or.inl rfl
  | @tail b c hr hstep ih =>
    obtain ⟨nr, hnr, e, he, hen⟩ := hstep
    have hc : c ∈ neighborTargets gD b := by
      simp only [neighborTargets, hnr, Option.map_some', Option.getD_some]
      exact List.mem_map.mpr ⟨e, he, hen⟩
    rcases ih with rfl | rfl
    · rw [gD_targets.1] at hc
      simp only [List.mem_singleton] at hc
      exact Or.inr hc
    · rw [gD_targets.2.1] at hc
      simp only [List.mem_singleton] at hc
      exact Or.inl hc

/-- Node `2` of `gD` lies in the other component. -/
theorem gD_not_reach : ¬ Reachable gD 0 2 := by
  intro h
  rcases gD_reach_bound 2 h with h2 | h2 <;> exact absurd h2 (by norm_num)

/-- C4 witness: the disconnected concrete graph `gD` with start `0` and
destination `2`, discharging the unreachability hypothesis. -/
theorem unreachable_empty_paths_witness :
    ¬ Reachable gD 0 2 ∧ findFastestPath gD 0 2 = [] ∧
    findSafestPath gD 0 2 22 = [] :=
  ⟨gD_not_reach, (unreachable_empty_paths gD 0 2 gD_not_reach).1,
    (unreachable_empty_paths gD 0 2 gD_not_reach).2 22⟩

/-- Concrete value of the §8 example graph. -/
theorem g5_eval : g5 =
    [(0, ⟨P1, [⟨1, seg51, 12 / 100⟩, ⟨1, seg52, 10 / 100⟩]⟩),
     (1, ⟨P2, [⟨0, seg51, 12 / 100⟩, ⟨0, seg52, 10 / 100⟩]⟩)] := by
  norm_num [g5, buildGraph, buildGraphState, addSegment, getNodeId, ensureNode,
    pushEdge, alookup, nodeKey, fix6, seg51, seg52, P1, P2, round_eq,
    Prod.mk.injEq, -Prod.mk_zero_zero, -Prod.mk_one_one]

/-- The fastest query on the §8 example graph returns `[0, 1]`, with the
relaxation settling on Segment2's length `0.10`. -/
theorem g5_fastest : findFastestPath g5 0 1 = [0, 1] := by
  rw [g5_eval]
  norm_num [findFastestPath, dijkstra, dijkstraLoop, selectMin, relaxAll,
    relaxStep, reconstructPath, oLt, alookup, keys, Function.update,
    List.foldl_cons, List.erase_cons, Option.map_some', seg51, seg52,
    Option.some_ne_none]

/-- The night safest query on the §8 example graph returns `[0, 1]`, with the
relaxation settling on Segment1's clamped cost `0.1`. -/
theorem g5_safest : findSafestPath g5 0 1 22 = [0, 1] := by
  rw [g5_eval]
  norm_num [findSafestPath, dijkstra, dijkstraLoop, selectMin, relaxAll,
    relaxStep, reconstructPath, oLt, alookup, keys, Function.update,
    List.foldl_cons, List.erase_cons, Option.map_some', seg51, seg52,
    edgeCost, rawCost, safetyScore, safestWeights, isDayTimeHour, resolveHour,
    W_INFRASTRUCTURE, W_LIGHTING, W_AMENITY, W_CRIME, W_DISRUPTION,
    Option.some_ne_none]

/-- C5, counterexample: on the §8 example graph at night the two pathfinding
variants return the very same node path `[0, 1]` — the return value cannot
record which parallel edge realized the optimum — and resolving that path's
single hop the way `pathToCoordinates` does (`neighbors.find`) yields the
first-inserted parallel edge, Segment1 (sid `51`), for the fastest path as
well; so `findFastestPath` does not return "the path using Segment2". -/
theorem parallel_edges_counterexample :
    findFastestPath g5 0 1 = findSafestPath g5 0 1 22 ∧
    findFastestPath g5 0 1 = [0, 1] ∧
    usedSegmentSid g5 0 1 = some 51 ∧
    seg51.sid = 51 ∧ seg52.sid = 52 ∧
    usedSegmentSid g5 0 1 ≠ some seg52.sid := by
  have hused : usedSegmentSid g5 0 1 = some 51 := by
    rw [g5_eval]
    norm_num [usedSegmentSid, alookup, List.find?, seg51]
  refine ⟨?_, g5_fastest, hused, rfl, rfl, ?_⟩
  · rw [g5_fastest, g5_safest]
  · rw [hused]
    norm_num [seg52]

/-- C5 (amended): on the §8 example graph at a night hour, `findSafestPath`
and `findFastestPath` both return the node path `[0, 1]`.  The safest
relaxation realizes its optimum through Segment1 — Segment1's clamped night
cost `0.1` is strictly below Segment2's `1.5` although Segment2 is physically
shorter — while the fastest relaxation realizes Segment2's length
`0.10 < 0.12`; but the returned node paths are identical, and coordinate
reconstruction resolves the hop through the first-inserted parallel edge
(Segment1) for both variants. -/
theorem parallel_edges_amended :
    findSafestPath g5 0 1 22 = [0, 1] ∧
    findFastestPath g5 0 1 = [0, 1] ∧
    safestWeights 22 = (W_LIGHTING, W_CRIME * (3 / 2)) ∧
    edgeCost W_LIGHTING (W_CRIME * (3 / 2)) seg51.length seg51.scores = 1 / 10 ∧
    edgeCost W_LIGHTING (W_CRIME * (3 / 2)) seg52.length seg52.scores = 3 / 2 ∧
    edgeCost W_LIGHTING (W_CRIME * (3 / 2)) seg51.length seg51.scores <
      edgeCost W_LIGHTING (W_CRIME * (3 / 2)) seg52.length seg52.scores ∧
    seg52.length < seg51.length ∧
    usedSegmentSid g5 0 1 = some seg51.sid := by
  refine ⟨g5_safest, g5_fastest, rfl, ?_, ?_, ?_, ?_, ?_⟩
  · norm_num [edgeCost, rawCost, safetyScore, seg51, W_INFRASTRUCTURE,
      W_LIGHTING, W_AMENITY, W_CRIME, W_DISRUPTION]
  · norm_num [edgeCost, rawCost, safetyScore, seg52, W_INFRASTRUCTURE,
      W_LIGHTING, W_AMENITY, W_CRIME, W_DISRUPTION]
  · norm_num [edgeCost, rawCost, safetyScore, seg51, seg52, W_INFRASTRUCTURE,
      W_LIGHTING, W_AMENITY, W_CRIME, W_DISRUPTION]
  · norm_num [seg51, seg52]
  · rw [g5_eval]
    norm_num [usedSegmentSid, alookup, List.find?, seg51]

/-- The stand-in distance vanishes on equal points. -/
theorem sqDist_self (c : Coord) : sqDist c c = 0 := by
  simp [sqDist]

/-- The stand-in distance is nonnegative. -/
theorem sqDist_nonneg (c d : Coord) : 0 ≤ sqDist c d := by
  unfold sqDist
  positivity

/-- The stand-in distance is positive on distinct points. -/
theorem sqDist_pos {c d : Coord} (h : c ≠ d) : 0 < sqDist c d := by
  have h' : c.1 ≠ d.1 ∨ c.2 ≠ d.2 := by
    by_contra hc
    push_neg at hc
    exact h (Prod.ext hc.1 hc.2)
  unfold sqDist
  rcases h' with h1 | h1
  · have hp := pow_two_pos_of_ne_zero (sub_ne_zero.mpr h1)
    have hq := sq_nonneg (c.2 - d.2)
    linarith
  · have hp := pow_two_pos_of_ne_zero (sub_ne_zero.mpr h1)
    have hq := sq_nonneg (c.1 - d.1)
    linarith

/-- C8 (amended): for every graph, a two-node path `[A, B]` with `B` in `A`'s
neighbor list, and any distance function with the Haversine sign behavior
(`dist c c = 0`, nonnegative, positive on distinct points), IF the connecting
segment's stored endpoint coordinates coincide exactly with the two nodes'
stored coordinates (in either orientation, no canonicalization collision) and
the node coordinates differ, THEN `pathToCoordinates` returns a non-empty
polyline whose first element is `A`'s stored coordinate and whose last
element is `B`'s stored coordinate.  (The counterexample shows the exact-
endpoint condition cannot be dropped.) -/
theorem pathToCoordinates_two_node (dist : Coord → Coord → ℚ) (g : Graph)
    (A B : ℕ) (nrA nrB : NodeRec) (e : Edge)
    (hA : alookup A g = some nrA) (hB : alookup B g = some nrB)
    (hfind : nrA.neighbors.find? (fun x => x.node == B) = some e)
    (hor : (e.segment.coordinates.head? = some nrA.coords ∧
            e.segment.coordinates.getLast? = some nrB.coords) ∨
           (e.segment.coordinates.head? = some nrB.coords ∧
            e.segment.coordinates.getLast? = some nrA.coords))
    (hne : nrA.coords ≠ nrB.coords)
    (h0 : ∀ c, dist c c = 0) (hnn : ∀ c d, 0 ≤ dist c d)
    (hpos : ∀ c d, c ≠ d → 0 < dist c d) :
    pathToCoordinates dist [A, B] g ≠ [] ∧
    (pathToCoordinates dist [A, B] g).head? = some nrA.coords ∧
    (pathToCoordinates dist [A, B] g).getLast? = some nrB.coords := by
  have hhop : (hopCoords dist g true A B).head? = some nrA.coords ∧
      (hopCoords dist g true A B).getLast? = some nrB.coords := by
    rcases hor with ⟨hh, hl⟩ | ⟨hh, hl⟩
    · have hrev : ¬ dist (e.segment.coordinates.getLast?.getD (0, 0)) nrA.coords <
          dist (e.segment.coordinates.head?.getD (0, 0)) nrA.coords := by
        rw [hh, hl]
        simp only [Option.getD_some]
        rw [h0]
        exact not_lt.mpr (hnn _ _)
      simp only [hopCoords, hA, hfind, if_neg hrev, if_pos]
      exact ⟨hh, hl⟩
    · have hrev : dist (e.segment.coordinates.getLast?.getD (0, 0)) nrA.coords <
          dist (e.segment.coordinates.head?.getD (0, 0)) nrA.coords := by
        rw [hh, hl]
        simp only [Option.getD_some]
        rw [h0]
        exact hpos _ _ (fun hc => hne (by rw [hc]))
      simp only [hopCoords, hA, hfind, if_pos hrev, if_pos]
      rw [List.head?_reverse, List.getLast?_reverse]
      exact ⟨hl, hh⟩
  have hfold : hopFold dist g true [A, B] = hopCoords dist g true A B := by
    simp [hopFold]
  have hval : pathToCoordinates dist [A, B] g = hopCoords dist g true A B := by
    unfold pathToCoordinates
    rw [if_neg (by norm_num)]
    dsimp only
    rw [show ([A, B].getLastD 0) = B from rfl, hB]
    dsimp only
    rw [hfold, hhop.2]
    dsimp only
    rw [h0]
    rw [if_neg (by norm_num)]
  refine ⟨?_, ?_, ?_⟩
  · rw [hval]
    intro hc
    rw [hc] at hhop
    exact Option.noConfusion hhop.1
  · rw [hval]; exact hhop.1
  · rw [hval]; exact hhop.2

/-- Concrete value of the C8 counterexample graph: `segB8`'s start collides
onto node `0`, whose stored coordinate stays `(0, 0)` from `segD1`. -/
theorem gC8_eval : gC8 =
    [(0, ⟨(0, 0), [⟨1, segD1, 1⟩, ⟨2, segB8, 3⟩]⟩),
     (1, ⟨(1, 1), [⟨0, segD1, 1⟩]⟩),
     (2, ⟨(2, 2), [⟨0, segB8, 3⟩]⟩)] := by
  norm_num [gC8, buildGraph, buildGraphState, addSegment, getNodeId, ensureNode,
    pushEdge, alookup, nodeKey, fix6, segD1, segB8, round_eq, Prod.mk.injEq,
    -Prod.mk_zero_zero, -Prod.mk_one_one]

/-- Concrete value of the single-segment witness graph. -/
theorem gW1_eval : gW1 =
    [(0, ⟨(0, 0), [⟨1, segD1, 1⟩]⟩), (1, ⟨(1, 1), [⟨0, segD1, 1⟩]⟩)] := by
  norm_num [gW1, buildGraph, buildGraphState, addSegment, getNodeId, ensureNode,
    pushEdge, alookup, nodeKey, fix6, segD1, round_eq, Prod.mk.injEq,
    -Prod.mk_zero_zero, -Prod.mk_one_one]

/-- C8, counterexample: in the built graph `gC8`, node `0` stores coordinate
`(0, 0)` and has node `2` in its neighbor list (via `segB8`), but the
polyline of the two-node path `[0, 2]` starts at `segB8`'s exact stored
endpoint `(1e-7, 0)` — not at node `0`'s stored coordinate — because the
segment's endpoint only collides with the node's coordinate after `toFixed(6)`
rounding.  (The reversal test compares the hop's two endpoint distances,
`≈ 0` versus `≈ √8`, so any distance function monotone in planar separation —
the Haversine included — takes the same branch as the stand-in used here.) -/
theorem pathToCoordinates_two_node_counterexample :
    (alookup 0 gC8).map (fun nr => nr.coords) = some ((0 : ℚ), (0 : ℚ)) ∧
    2 ∈ neighborTargets gC8 0 ∧
    (pathToCoordinates sqDist [0, 2] gC8).head? =
      some ((1 / 10000000 : ℚ), (0 : ℚ)) ∧
    some ((1 / 10000000 : ℚ), (0 : ℚ)) ≠ some ((0 : ℚ), (0 : ℚ)) := by
  refine ⟨?_, ?_, ?_, by norm_num [Prod.ext_iff]⟩
  · rw [gC8_eval]
    norm_num [alookup]
  · rw [gC8_eval]
    norm_num [neighborTargets, alookup]
  · rw [gC8_eval]
    norm_num [pathToCoordinates, hopFold, hopCoords, alookup, sqDist,
      List.find?, segD1, segB8, List.getLastD,
      show ((1 : ℕ) == 2) = false from rfl, show ((2 : ℕ) == 2) = true from rfl]

/-- C8 witness: on the collision-free single-segment graph `gW1`, the
amended theorem applies with the stand-in distance and yields a polyline
from node `0`'s coordinate to node `1`'s. -/
theorem pathToCoordinates_two_node_witness :
    alookup 0 gW1 = some ⟨(0, 0), [⟨1, segD1, 1⟩]⟩ ∧
    (pathToCoordinates sqDist [0, 1] gW1).head? = some ((0 : ℚ), (0 : ℚ)) ∧
    (pathToCoordinates sqDist [0, 1] gW1).getLast? = some ((1 : ℚ), (1 : ℚ)) := by
  have hA : alookup 0 gW1 = some ⟨(0, 0), [⟨1, segD1, 1⟩]⟩ := by
    rw [gW1_eval]; rfl
  have hB : alookup 1 gW1 = some ⟨(1, 1), [⟨0, segD1, 1⟩]⟩ := by
    rw [gW1_eval]; rfl
  have h := pathToCoordinates_two_node sqDist gW1 0 1 ⟨(0, 0), [⟨1, segD1, 1⟩]⟩
    ⟨(1, 1), [⟨0, segD1, 1⟩]⟩ ⟨1, segD1, 1⟩ hA hB rfl (Or.inl ⟨rfl, rfl⟩)
    (by norm_num [Prod.ext_iff]) sqDist_self sqDist_nonneg
    (fun c d hcd => sqDist_pos hcd)
  exact ⟨hA, h.2.1, h.2.2⟩

/-- C10: for every graph and every path holding fewer than two node ids —
including a `null` path and the single-node path that
`findFastestPath(graph, X, X)` returns for a present node `X` —
`pathToCoordinates` returns the empty coordinate sequence (not a one-point
polyline, and no error). -/
theorem pathToCoordinates_short (dist : Coord → Coord → ℚ) (g : Graph)
    (p : List ℕ) (h : p.length < 2) :
    pathToCoordinates dist p g = [] ∧
    pathToCoordinatesOpt dist none g = [] ∧
    (∀ X ∈ keys g, pathToCoordinates dist (findFastestPath g X X) g = []) := by
  refine ⟨?_, rfl, ?_⟩
  · unfold pathToCoordinates
    rw [if_pos h]
  · intro X hX
    have h1 : findFastestPath g X X = [X] := dijkstra_self g _ X hX
    rw [h1]
    rfl

/-- C10 witness: a concrete one-node path on the concrete graph. -/
theorem pathToCoordinates_short_witness :
    ([7] : List ℕ).length < 2 ∧ pathToCoordinates sqDist [7] gW1 = [] :=
  ⟨by norm_num, (pathToCoordinates_short sqDist gW1 [7] (by norm_num)).1⟩
